import Mathlib

/-!
Shallow embedding of the core of git-annex-archiver: the content allocator
(src/commands/allocate.rs), the platform drop-marker primitive
(src/platform/macos.rs), the remote prober (src/commands.rs,
test_available_remotes) and the mirror synchronizer (src/commands/sync.rs,
make_embedded_git_copies).  External command outcomes (git annex drop/get
exit status, remote probe results, filesystem call results) are inputs
(oracles); the embedding records the operations the code would invoke as
explicit event lists.
-/

/-! ## Platform drop-marker primitive (src/platform/macos.rs) -/

/-- Models TAG_XATTR_DROP_ITEM_VALUE from src/platform/macos.rs. -/
def TAG_XATTR_DROP_ITEM_VALUE : String := "Dropped\n1"

/-- Models set_file_drop_attr: given the file's current tag list, returns the
new tag list and whether an xattr write was performed.  The source appends the
drop tag and writes only when the tag is absent. -/
def setFileDropAttr (tags : List String) : List String × Bool :=
  if TAG_XATTR_DROP_ITEM_VALUE ∈ tags then (tags, false)
  else (tags ++ [TAG_XATTR_DROP_ITEM_VALUE], true)

/-- Models unset_file_drop_attr: when the drop tag is present, the source
writes back the tag list filtered by the predicate
`|x| false && !x.eq(&TAG_XATTR_DROP_ITEM_VALUE)` (note the constant false). -/
def unsetFileDropAttr (tags : List String) : List String × Bool :=
  if TAG_XATTR_DROP_ITEM_VALUE ∈ tags then
    (tags.filter fun x => false && !(x == TAG_XATTR_DROP_ITEM_VALUE), true)
  else (tags, false)

/-! ## Content allocator (src/commands/allocate.rs) -/

/-- One repository as the allocator observes it: outputs of the git queries it
runs, on-disk mtimes, the initial drop-marker state, and oracles giving the
exit status of the content drop/get commands. -/
structure Repo where
  trackedPaths : List String
  trackedDroppedPaths : List String
  untrackedPaths : List String
  mtime : String → Nat
  commitTime : Nat
  hasDropAttr : String → Bool
  annexLogPaths : List String
  dropResult : String → Bool
  getResult : String → Nat → Bool

/-- Operations the allocator invokes, in order: a remote probe
(test_available_remotes), a content fetch (git annex get), a content drop
(git annex drop), or an xattr marker write (true = set, false = unset). -/
inductive AEvent where
  | probe : AEvent
  | fetch : String → AEvent
  | drop : String → AEvent
  | attrWrite : String → Bool → AEvent
deriving DecidableEq

/-- Path a marker or content event concerns; probes concern none. -/
def eventPath : AEvent → Option String
  | AEvent.probe => none
  | AEvent.fetch p => some p
  | AEvent.drop p => some p
  | AEvent.attrWrite p _ => some p

/-- Marker set at the Bool level, mirroring set_file_drop_attr: writes only
when the marker is not already set. -/
def setAttrB (attr : String → Bool) (p : String) : (String → Bool) × List AEvent :=
  if attr p then (attr, [])
  else (fun q => if q = p then true else attr q, [AEvent.attrWrite p true])

/-- Marker clear at the Bool level, mirroring unset_file_drop_attr: writes only
when the marker is currently set. -/
def unsetAttrB (attr : String → Bool) (p : String) : (String → Bool) × List AEvent :=
  if attr p then (fun q => if q = p then false else attr q, [AEvent.attrWrite p false])
  else (attr, [])

/-- Sets the marker on every path of the list in turn. -/
def foldSetAttr (attr : String → Bool) : List String → (String → Bool) × List AEvent
  | [] => (attr, [])
  | p :: rest =>
    let r1 := setAttrB attr p
    let r2 := foldSetAttr r1.1 rest
    (r2.1, r1.2 ++ r2.2)

/-- Clears the marker on every path of the list in turn. -/
def foldUnsetAttr (attr : String → Bool) : List String → (String → Bool) × List AEvent
  | [] => (attr, [])
  | p :: rest =>
    let r1 := unsetAttrB attr p
    let r2 := foldUnsetAttr r1.1 rest
    (r2.1, r1.2 ++ r2.2)

/-- State threaded through the send-paths loop of allocate. -/
structure SendState where
  attr : String → Bool
  events : List AEvent
  hasTested : Bool
  isRepoOk : Bool

/-- Models GET_MAX_CT from src/commands/allocate.rs. -/
def GET_MAX_CT : Nat := 4

/-- Body of the fetch retry while loop; fuel bounds the iteration count and is
instantiated with maxCt, which the guard ct < maxCt never exceeds. -/
def getLoopGo (oracle : Nat → Bool) (maxCt : Nat) : Nat → Nat → Bool → Nat × Bool
  | 0, ct, ok => (ct, ok)
  | fuel + 1, ct, ok =>
    if ct < maxCt ∧ ok = false then getLoopGo oracle maxCt fuel (ct + 1) (oracle ct)
    else (ct, ok)

/-- Models the while loop `while get_ct < GET_MAX_CT && !is_command_ok`:
returns the number of git annex get invocations and the final success flag. -/
def getLoop (oracle : Nat → Bool) (maxCt : Nat) : Nat × Bool :=
  getLoopGo oracle maxCt maxCt 0 false

/-- Lazy memoized probe: test_available_remotes is invoked only when it has
not run yet for this repository. -/
def probeStep (s : SendState) : SendState :=
  if s.hasTested then s
  else { s with events := s.events ++ [AEvent.probe], hasTested := true }

/-- Body of the send-paths loop of allocate, for one path. -/
def handleSendPath (r : Repo) (uncommitted : List String) (s : SendState) (p : String) :
    SendState :=
  if s.attr p then
    if p ∈ r.trackedDroppedPaths then s
    else
      let s1 := probeStep s
      if p ∈ uncommitted then
        let u := unsetAttrB s1.attr p
        { s1 with attr := u.1, events := s1.events ++ u.2 }
      else
        let s2 := { s1 with events := s1.events ++ [AEvent.drop p] }
        if r.dropResult p then
          let u := setAttrB s2.attr p
          { s2 with attr := u.1, events := s2.events ++ u.2 }
        else { s2 with isRepoOk := false }
  else
    if p ∈ r.trackedDroppedPaths then
      let s1 := probeStep s
      if p ∈ uncommitted then
        let u := setAttrB s1.attr p
        { s1 with attr := u.1, events := s1.events ++ u.2 }
      else
        let g := getLoop (r.getResult p) GET_MAX_CT
        let s2 := { s1 with events := s1.events ++ List.replicate g.1 (AEvent.fetch p) }
        if g.2 then
          let u := unsetAttrB s2.attr p
          { s2 with attr := u.1, events := s2.events ++ u.2 }
        else { s2 with isRepoOk := false }
    else s

/-- The received (want-present) policy set, per the match on received_since. -/
def receivedPathsOf (r : Repo) : Option Nat → List String
  | none => r.trackedPaths
  | some t =>
    if (r.trackedPaths.filter fun p => decide (r.mtime p > t)).isEmpty then []
    else r.annexLogPaths

/-- send_paths = tracked_paths.difference(received_paths). -/
def sendPathsOf (r : Repo) (since : Option Nat) : List String :=
  r.trackedPaths.filter fun p => decide (p ∉ receivedPathsOf r since)

/-- uncommitted_paths: tracked paths whose mtime is newer than the last
commit date. -/
def uncommittedOf (r : Repo) : List String :=
  r.trackedPaths.filter fun p => decide (r.mtime p > r.commitTime)

/-- Bookkeeping-only phase of allocate: set the marker on received paths the
store reports dropped, clear it on the rest of the received paths, and on a
full pass clear it on untracked paths as well. -/
def bookkeeping (r : Repo) (since : Option Nat) : (String → Bool) × List AEvent :=
  let received := receivedPathsOf r since
  let f1 := foldSetAttr r.hasDropAttr
    (received.filter fun p => decide (p ∈ r.trackedDroppedPaths))
  let f2 := foldUnsetAttr f1.1
    (received.filter fun p => decide (p ∉ r.trackedDroppedPaths))
  let f3 := if since.isNone then foldUnsetAttr f2.1 r.untrackedPaths else (f2.1, [])
  (f3.1, f1.2 ++ f2.2 ++ f3.2)

/-- State entering the send-paths loop. -/
def initialSendState (r : Repo) (since : Option Nat) : SendState :=
  { attr := (bookkeeping r since).1, events := (bookkeeping r since).2,
    hasTested := false, isRepoOk := true }

/-- One repository pass of allocate: the bookkeeping phase over received
paths (and untracked paths on a full pass), then the send-paths loop. -/
def allocateRepo (r : Repo) (since : Option Nat) : SendState :=
  let send := sendPathsOf r since
  if send.length > 0 then
    send.foldl (handleSendPath r (uncommittedOf r)) (initialSendState r since)
  else initialSendState r since

/-! ## Remote prober (src/commands.rs, test_available_remotes) -/

/-- One configured remote as the prober observes it: its name and URL from
git remote, with oracles for the ls-remote probe outcome and duration. -/
structure Remote where
  name : String
  url : String
  probeOk : Bool
  probeDurationMs : Nat

/-- Externally visible actions of the prober: a timed ls-remote probe, a
persisted annex-cost config write, a persisted annex-ignore config write. -/
inductive RemoteEvent where
  | probe : String → RemoteEvent
  | setCost : String → Nat → RemoteEvent
  | setIgnore : String → Bool → RemoteEvent
deriving DecidableEq

/-- URL head the source compares with remote_url.starts_with. -/
def gcryptRsyncHead : String := "gcrypt::rsync://"

/-- Character-level model of str::starts_with: the first list is the pattern,
the second the candidate. -/
def headMatches : List Char → List Char → Bool
  | [], _ => true
  | _ :: _, [] => false
  | c :: cs, d :: ds => c == d && headMatches cs ds

/-- remote_url.starts_with on the gcrypt rsync transport head. -/
def urlIsGcryptRsync (url : String) : Bool :=
  headMatches gcryptRsyncHead.toList url.toList

/-- Processing of a single remote inside test_available_remotes: probe and
persist cost/ignore for matching URLs, pass through the rest untouched. -/
def processRemote (r : Remote) : List RemoteEvent × List String :=
  if urlIsGcryptRsync r.url then
    if r.probeOk then
      ([RemoteEvent.probe r.name,
        RemoteEvent.setCost r.name (200 + r.probeDurationMs / 100),
        RemoteEvent.setIgnore r.name false], [r.name])
    else ([RemoteEvent.probe r.name, RemoteEvent.setIgnore r.name true], [])
  else ([], [r.name])

/-- test_available_remotes over the git-remote listing order. -/
def testAvailableRemotes : List Remote → List RemoteEvent × List String
  | [] => ([], [])
  | r :: rest =>
    let h := processRemote r
    let t := testAvailableRemotes rest
    (h.1 ++ t.1, h.2 ++ t.2)

/-! ## Mirror synchronizer (src/commands/sync.rs, make_embedded_git_copies)

The per-mirror body of make_embedded_git_copies: the mirror is a list of
(relative path, isDir) entries, the source walk a list of directory entries in
walkdir order (each possibly a traversal error), and filesystem call outcomes
are oracles.  Rust unwrap calls are modelled as Except.error; errors the
source logs and skips are recorded in the log list. -/

/-- Kind of a walked source entry. -/
inductive EntryKind where
  | dir : EntryKind
  | file : EntryKind
deriving DecidableEq

/-- One entry of the source walk: relative path, kind, on-disk mtime. -/
structure SrcEntry where
  path : String
  kind : EntryKind
  mtime : Nat
deriving DecidableEq

/-- Log lines the synchronizer emits for mirror mutations and their failures. -/
inductive SyncLog where
  | mkdirLog : String → SyncLog
  | cpLog : String → SyncLog
  | rmLog : String → SyncLog
  | rmdirLog : String → SyncLog
  | errMkdir : String → SyncLog
  | errCp : String → SyncLog
  | errRm : String → SyncLog
  | errRmdir : String → SyncLog
deriving DecidableEq

/-- Outcomes of the filesystem calls the synchronizer makes, as oracles:
fs::copy, fs::create_dir_all, fs::remove_file / fs::remove_dir, metadata reads
on walked source entries, the metadata read on a fresh copy, whether the copy
is read-only, fs::set_permissions, and the final watermark stamp. -/
structure SyncOracles where
  copyOk : String → Bool
  mkdirOk : String → Bool
  removeOk : String → Bool
  srcMetaOk : String → Bool
  copyMetaOk : String → Bool
  readonlyCopy : String → Bool
  setPermsOk : String → Bool
  stampOk : Bool

/-- State threaded through one mirror pass: current mirror entries, the
unprocessed relative paths, and the mutation log. -/
structure MirrorState where
  entries : List (String × Bool)
  unprocessed : List String
  logs : List SyncLog

/-- Looks up a mirror entry by relative path (some isDir when present). -/
def lookupEntry (m : List (String × Bool)) (p : String) : Option Bool :=
  (m.find? fun e => decide (e.1 = p)).map Prod.snd

/-- Creates or overwrites a mirror entry at a relative path. -/
def setEntry (m : List (String × Bool)) (p : String) (isDir : Bool) :
    List (String × Bool) :=
  if (m.find? fun e => decide (e.1 = p)).isSome then
    m.map fun e => if e.1 = p then (e.1, isDir) else e
  else (p, isDir) :: m

/-- fs::create_dir_all on a mirror path: failure is logged, never fatal. -/
def applyMkdir (o : SyncOracles) (st : MirrorState) (p : String) : MirrorState :=
  if o.mkdirOk p then
    { st with entries := setEntry st.entries p true, logs := st.logs ++ [SyncLog.mkdirLog p] }
  else { st with logs := st.logs ++ [SyncLog.errMkdir p] }

/-- fs::copy source to mirror: a copy failure is logged and skipped, but after
a successful copy the source unwraps the copy's metadata read and, when the
copy is read-only, the fs::set_permissions result, so those failures abort. -/
def applyCopy (o : SyncOracles) (st : MirrorState) (p : String) :
    Except Unit MirrorState :=
  if o.copyOk p then
    if o.copyMetaOk p then
      if o.readonlyCopy p then
        if o.setPermsOk p then
          Except.ok { st with entries := setEntry st.entries p false,
                              logs := st.logs ++ [SyncLog.cpLog p] }
        else Except.error ()
      else Except.ok { st with entries := setEntry st.entries p false,
                               logs := st.logs ++ [SyncLog.cpLog p] }
    else Except.error ()
  else Except.ok { st with logs := st.logs ++ [SyncLog.errCp p] }

/-- One step of the source walk.  A traversal (walkdir) error and a failed
source metadata read are unwrapped by the source, so they abort.  Directory
entries ensure the mirror directory exists; file entries copy, guarded by the
watermark when the path is already represented in the mirror. -/
def syncStep (o : SyncOracles) (w : Option Nat) (st : MirrorState)
    (ee : Except Unit SrcEntry) : Except Unit MirrorState :=
  match ee with
  | Except.error _ => Except.error ()
  | Except.ok e =>
    if o.srcMetaOk e.path then
      match e.kind with
      | EntryKind.dir =>
        if e.path ∈ st.unprocessed then
          let st1 := if (lookupEntry st.entries e.path).isSome then st
                     else applyMkdir o st e.path
          Except.ok { st1 with
            unprocessed := st1.unprocessed.filter fun q => decide (q ≠ e.path) }
        else Except.ok (applyMkdir o st e.path)
      | EntryKind.file =>
        if e.path ∈ st.unprocessed then
          if (match w with | none => true | some t => decide (e.mtime > t)) then
            match applyCopy o st e.path with
            | Except.error _ => Except.error ()
            | Except.ok st1 =>
              Except.ok { st1 with
                unprocessed := st1.unprocessed.filter fun q => decide (q ≠ e.path) }
          else Except.ok { st with
            unprocessed := st.unprocessed.filter fun q => decide (q ≠ e.path) }
        else
          match applyCopy o st e.path with
          | Except.error _ => Except.error ()
          | Except.ok st1 => Except.ok st1
    else Except.error ()

/-- The depth-first walk over the source entries. -/
def syncWalk (o : SyncOracles) (w : Option Nat) :
    MirrorState → List (Except Unit SrcEntry) → Except Unit MirrorState
  | st, [] => Except.ok st
  | st, e :: rest =>
    match syncStep o w st e with
    | Except.error _ => Except.error ()
    | Except.ok st1 => syncWalk o w st1 rest

/-- Removal of one leftover unprocessed path: remove_dir for directories,
remove_file otherwise; failures are logged and skipped. -/
def removeStep (o : SyncOracles) (st : MirrorState) (p : String) : MirrorState :=
  if lookupEntry st.entries p = some true then
    if o.removeOk p then
      { st with entries := st.entries.filter fun e => decide (e.1 ≠ p),
                logs := st.logs ++ [SyncLog.rmdirLog p] }
    else { st with logs := st.logs ++ [SyncLog.errRmdir p] }
  else
    if o.removeOk p then
      { st with entries := st.entries.filter fun e => decide (e.1 ≠ p),
                logs := st.logs ++ [SyncLog.rmLog p] }
    else { st with logs := st.logs ++ [SyncLog.errRm p] }

/-- Deletes every path still unprocessed after the walk. -/
def syncRemovals (o : SyncOracles) (st : MirrorState) : MirrorState :=
  let st1 := st.unprocessed.foldl (removeStep o) st
  { st1 with unprocessed := [] }

/-- One mirror pass of make_embedded_git_copies: enumerate the mirror into the
unprocessed set, walk the source, delete leftovers, stamp the watermark
(whose failure the source unwraps). -/
def makeEmbeddedGitCopy (o : SyncOracles) (src : List (Except Unit SrcEntry))
    (mirror0 : List (String × Bool)) (w : Option Nat) (now : Nat) :
    Except Unit (MirrorState × Nat) :=
  let st0 : MirrorState :=
    { entries := mirror0, unprocessed := mirror0.map Prod.fst, logs := [] }
  match syncWalk o w st0 src with
  | Except.error _ => Except.error ()
  | Except.ok st1 =>
    if o.stampOk then Except.ok (syncRemovals o st1, now) else Except.error ()

/-- All filesystem calls succeed and copies are not read-only. -/
def allOk : SyncOracles :=
  { copyOk := fun _ => true, mkdirOk := fun _ => true, removeOk := fun _ => true,
    srcMetaOk := fun _ => true, copyMetaOk := fun _ => true,
    readonlyCopy := fun _ => false, setPermsOk := fun _ => true, stampOk := true }

/-! ## Derived observations and concrete inputs -/

/-- Number of remote probes in an allocator event list. -/
def countProbe (es : List AEvent) : Nat :=
  (es.filter fun e => decide (e = AEvent.probe)).length

/-- True for content fetch and drop invocations. -/
def isContentEvent : AEvent → Bool
  | AEvent.fetch _ => true
  | AEvent.drop _ => true
  | _ => false

/-- True when an allocator event concerns the given path. -/
def isEventOn (p : String) (e : AEvent) : Bool :=
  match eventPath e with
  | none => false
  | some q => decide (q = p)

/-- A repository whose single tracked file disagrees with the store (marker
set, content present) but carries an uncommitted edit (mtime 5 after commit
time 3); with watermark 0 it is a send path. -/
def repoC4x : Repo :=
  { trackedPaths := ["a"], trackedDroppedPaths := [], untrackedPaths := [],
    mtime := fun _ => 5, commitTime := 3, hasDropAttr := fun _ => true,
    annexLogPaths := [], dropResult := fun _ => true, getResult := fun _ _ => false }

/-- Concrete repository for exercising the uncommitted-edit guard. -/
def repoC1w : Repo :=
  { trackedPaths := ["a"], trackedDroppedPaths := [], untrackedPaths := [],
    mtime := fun _ => 5, commitTime := 3, hasDropAttr := fun _ => true,
    annexLogPaths := [], dropResult := fun _ => true, getResult := fun _ _ => false }

/-- Concrete repository for a full (no-watermark) pass: tracked a and b, b
dropped, plus one untracked file. -/
def repoC2w : Repo :=
  { trackedPaths := ["a", "b"], trackedDroppedPaths := ["b"], untrackedPaths := ["u"],
    mtime := fun _ => 1, commitTime := 3, hasDropAttr := fun _ => false,
    annexLogPaths := [], dropResult := fun _ => true, getResult := fun _ _ => false }

/-- Concrete repository whose content fetch fails on every attempt. -/
def repoC3w : Repo :=
  { trackedPaths := ["a"], trackedDroppedPaths := ["a"], untrackedPaths := [],
    mtime := fun _ => 1, commitTime := 3, hasDropAttr := fun _ => false,
    annexLogPaths := [], dropResult := fun _ => true, getResult := fun _ _ => false }

/-- Send-loop state before any send path has been handled. -/
def stateC3w : SendState :=
  { attr := fun _ => false, events := [], hasTested := false, isRepoOk := true }

/-- Concrete repository with no send paths at all on a full pass. -/
def repoC4w : Repo :=
  { trackedPaths := ["a"], trackedDroppedPaths := [], untrackedPaths := [],
    mtime := fun _ => 1, commitTime := 3, hasDropAttr := fun _ => false,
    annexLogPaths := [], dropResult := fun _ => true, getResult := fun _ _ => false }

/-- Concrete repository whose single send path agrees with the store (marker
clear, content present). -/
def repoC9w : Repo :=
  { trackedPaths := ["a"], trackedDroppedPaths := [], untrackedPaths := [],
    mtime := fun _ => 5, commitTime := 9, hasDropAttr := fun _ => false,
    annexLogPaths := [], dropResult := fun _ => true, getResult := fun _ _ => false }

/-- Encrypted-transport remote probed successfully in 50ms. -/
def remoteC5a : Remote :=
  { name := "enc", url := "gcrypt::rsync://host/store", probeOk := true,
    probeDurationMs := 50 }

/-- Encrypted-transport remote probed successfully in 950ms. -/
def remoteC5b : Remote :=
  { name := "enc2", url := "gcrypt::rsync://host/store2", probeOk := true,
    probeDurationMs := 950 }

/-- Plain (non-transport) remote named origin. -/
def remoteC8w : Remote :=
  { name := "origin", url := "https://host/repo", probeOk := false,
    probeDurationMs := 0 }

/-- Source tree with one file for the mirror synchronizer. -/
def srcC6w : List SrcEntry := [{ path := "f", kind := EntryKind.file, mtime := 5 }]

/-- Mirror state produced by the first pass over srcC6w from an empty mirror. -/
def stateC6w : MirrorState :=
  { entries := [("f", false)], unprocessed := [], logs := [SyncLog.cpLog "f"] }

/-- Oracles where the metadata read after a successful copy fails and every
other filesystem call succeeds. -/
def badSyncOracles : SyncOracles :=
  { copyOk := fun _ => true, mkdirOk := fun _ => true, removeOk := fun _ => true,
    srcMetaOk := fun _ => true, copyMetaOk := fun _ => false,
    readonlyCopy := fun _ => false, setPermsOk := fun _ => true, stampOk := true }

/-- Oracles where every copy fails and every other filesystem call succeeds. -/
def failCopySyncOracles : SyncOracles :=
  { copyOk := fun _ => false, mkdirOk := fun _ => true, removeOk := fun _ => true,
    srcMetaOk := fun _ => true, copyMetaOk := fun _ => true,
    readonlyCopy := fun _ => false, setPermsOk := fun _ => true, stampOk := true }

/-- Source tree with one file for exercising synchronizer failure handling. -/
def srcC7w : List SrcEntry := [{ path := "g", kind := EntryKind.file, mtime := 5 }]

/-! ## Theorems -/

theorem getLoopGo_done (o : Nat → Bool) (m fuel c : Nat) :
    getLoopGo o m fuel c true = (c, true) := by
  cases fuel <;> simp [getLoopGo]

theorem getLoopGo_all_false (o : Nat → Bool) (m : Nat) :
    ∀ fuel ct, ct + fuel = m → (∀ i, ct ≤ i → i < m → o i = false) →
    getLoopGo o m fuel ct false = (m, false) := by
  intro fuel
  induction fuel with
  | zero =>
    intro ct hct _
    simp only [Nat.add_zero] at hct
    subst hct
    simp [getLoopGo]
  | succ n ih =>
    intro ct hct ho
    have hlt : ct < m := by omega
    have hoct : o ct = false := ho ct (Nat.le_refl ct) hlt
    have hstep : getLoopGo o m (n + 1) ct false
        = getLoopGo o m n (ct + 1) (o ct) := by
      rw [getLoopGo, if_pos ⟨hlt, rfl⟩]
    rw [hstep, hoct]
    exact ih (ct + 1) (by omega) (fun i h1 h2 => ho i (by omega) h2)

theorem getLoopGo_first_true (o : Nat → Bool) (m : Nat) :
    ∀ fuel ct k, ct + fuel = m → ct ≤ k → k < m →
    (∀ j, ct ≤ j → j < k → o j = false) → o k = true →
    getLoopGo o m fuel ct false = (k + 1, true) := by
  intro fuel
  induction fuel with
  | zero => intro ct k hct hk hkm _ _; omega
  | succ n ih =>
    intro ct k hct hk hkm hj hok
    have hlt : ct < m := by omega
    have hcond : ct < m ∧ false = false := ⟨hlt, rfl⟩
    rw [getLoopGo, if_pos hcond]
    rcases Nat.eq_or_lt_of_le hk with heq | hlt2
    · subst heq
      rw [hok]
      exact getLoopGo_done o m n (ct + 1)
    · have hoct : o ct = false := hj ct (Nat.le_refl ct) hlt2
      rw [hoct]
      exact ih (ct + 1) k (by omega) (by omega) hkm
        (fun j h1 h2 => hj j (by omega) h2) hok

theorem getLoop_all_false (o : Nat → Bool) (m : Nat)
    (h : ∀ i, i < m → o i = false) : getLoop o m = (m, false) :=
  getLoopGo_all_false o m m 0 (by omega) (fun i _ h2 => h i h2)

theorem getLoop_first_true (o : Nat → Bool) (m k : Nat) (hk : k < m)
    (hj : ∀ j, j < k → o j = false) (hok : o k = true) :
    getLoop o m = (k + 1, true) :=
  getLoopGo_first_true o m m 0 k (by omega) (Nat.zero_le k) hk
    (fun j _ h2 => hj j h2) hok

/-- C3: a file that must be fetched (marker clear, store reports the content
absent, not an uncommitted edit) has the fetch command invoked exactly 4
consecutive times when every attempt fails, after which the repository is
marked unhealthy; when the first success is attempt k, exactly k+1
invocations happen and the marker ends clear. -/
theorem C3_fetch_retry_bound (r : Repo) (unc : List String) (s : SendState) (p : String)
    (h1 : s.attr p = false) (h2 : p ∈ r.trackedDroppedPaths) (h3 : p ∉ unc) :
    ((∀ i, r.getResult p i = false) →
      (handleSendPath r unc s p).events
        = s.events ++ (if s.hasTested then [] else [AEvent.probe])
            ++ List.replicate GET_MAX_CT (AEvent.fetch p)
      ∧ (handleSendPath r unc s p).isRepoOk = false)
    ∧ (∀ k, k < GET_MAX_CT → (∀ j, j < k → r.getResult p j = false) →
        r.getResult p k = true →
      (handleSendPath r unc s p).events
        = s.events ++ (if s.hasTested then [] else [AEvent.probe])
            ++ List.replicate (k + 1) (AEvent.fetch p)
      ∧ (handleSendPath r unc s p).attr p = false) := by
  constructor
  · intro hall
    have hg : getLoop (r.getResult p) GET_MAX_CT = (GET_MAX_CT, false) :=
      getLoop_all_false _ _ (fun i _ => hall i)
    simp only [handleSendPath, h1, Bool.false_eq_true, if_false, h2, if_pos, h3,
      probeStep, hg]
    by_cases ht : s.hasTested <;> simp [ht, List.append_assoc]
  · intro k hk hj hok
    have hg : getLoop (r.getResult p) GET_MAX_CT = (k + 1, true) :=
      getLoop_first_true _ _ k hk hj hok
    simp only [handleSendPath, h1, Bool.false_eq_true, if_false, h2, if_pos, h3,
      probeStep, hg, unsetAttrB]
    by_cases ht : s.hasTested <;> simp [ht, h1, List.append_assoc]

theorem C3_fetch_retry_bound_witness :
    stateC3w.attr "a" = false ∧ "a" ∈ repoC3w.trackedDroppedPaths ∧ "a" ∉ ([] : List String)
    ∧ ((handleSendPath repoC3w [] stateC3w "a").events
        = [AEvent.probe, AEvent.fetch "a", AEvent.fetch "a", AEvent.fetch "a",
           AEvent.fetch "a"]
      ∧ (handleSendPath repoC3w [] stateC3w "a").isRepoOk = false) := by
  refine ⟨rfl, by decide, by decide, ?_⟩
  have h := (C3_fetch_retry_bound repoC3w [] stateC3w "a" rfl (by decide)
    (by decide)).1 (fun _ => rfl)
  exact ⟨by rw [h.1]; decide, h.2⟩

/-- C5: a successful probe of an encrypted-rsync remote persists cost
200 + duration_ms / 100 (floor division), which is monotonically
non-decreasing in the duration; 50ms gives 200 and 950ms gives 209. -/
theorem C5_probe_cost (rA rB : Remote)
    (h1 : urlIsGcryptRsync rA.url = true) (h2 : rA.probeOk = true)
    (h3 : urlIsGcryptRsync rB.url = true) (h4 : rB.probeOk = true)
    (hd : rA.probeDurationMs ≤ rB.probeDurationMs) :
    (processRemote rA).1 = [RemoteEvent.probe rA.name,
        RemoteEvent.setCost rA.name (200 + rA.probeDurationMs / 100),
        RemoteEvent.setIgnore rA.name false]
    ∧ 200 + rA.probeDurationMs / 100 ≤ 200 + rB.probeDurationMs / 100
    ∧ (rA.probeDurationMs = 50 → 200 + rA.probeDurationMs / 100 = 200)
    ∧ (rB.probeDurationMs = 950 → 200 + rB.probeDurationMs / 100 = 209) := by
  refine ⟨by simp [processRemote, h1, h2], ?_, ?_, ?_⟩
  · exact Nat.add_le_add_left (Nat.div_le_div_right hd) 200
  · intro h; rw [h]
  · intro h; rw [h]

theorem C5_probe_cost_witness :
    urlIsGcryptRsync remoteC5a.url = true ∧ remoteC5a.probeOk = true
    ∧ urlIsGcryptRsync remoteC5b.url = true ∧ remoteC5b.probeOk = true
    ∧ remoteC5a.probeDurationMs ≤ remoteC5b.probeDurationMs
    ∧ ((processRemote remoteC5a).1 = [RemoteEvent.probe "enc",
          RemoteEvent.setCost "enc" 200, RemoteEvent.setIgnore "enc" false]
      ∧ 200 + remoteC5a.probeDurationMs / 100 ≤ 200 + remoteC5b.probeDurationMs / 100
      ∧ 200 + remoteC5b.probeDurationMs / 100 = 209) := by
  have h := C5_probe_cost remoteC5a remoteC5b (by decide) (by decide) (by decide)
    (by decide) (by decide)
  exact ⟨by decide, by decide, by decide, by decide, by decide,
    by rw [h.1]; decide, h.2.1, h.2.2.2 (by decide)⟩

/-- C8: a remote whose URL does not match the encrypted-rsync transport head
is returned with no probe and no configuration mutation, and the returned
set is the filtered git-remote listing order. -/
theorem C8_non_transport_untouched (rs : List Remote) (r : Remote)
    (h : urlIsGcryptRsync r.url = false) :
    (processRemote r).1 = [] ∧ (processRemote r).2 = [r.name]
    ∧ (testAvailableRemotes rs).2
        = (rs.filter fun x => !urlIsGcryptRsync x.url || x.probeOk).map Remote.name := by
  refine ⟨by simp [processRemote, h], by simp [processRemote, h], ?_⟩
  induction rs with
  | nil => rfl
  | cons x rest ih =>
    by_cases hx : urlIsGcryptRsync x.url = true <;>
      by_cases hp : x.probeOk = true <;>
        simp [testAvailableRemotes, processRemote, hx, hp, ih,
          Bool.not_eq_true] <;>
      simp_all [testAvailableRemotes, processRemote]

theorem C8_non_transport_untouched_witness :
    urlIsGcryptRsync remoteC8w.url = false
    ∧ ((processRemote remoteC8w).1 = [] ∧ (processRemote remoteC8w).2 = ["origin"]
      ∧ (testAvailableRemotes [remoteC8w, remoteC5a]).2
          = ([remoteC8w, remoteC5a].filter
              fun x => !urlIsGcryptRsync x.url || x.probeOk).map Remote.name) := by
  exact ⟨by decide, C8_non_transport_untouched [remoteC8w, remoteC5a] remoteC8w (by decide)⟩

/-- C10: when the drop tag is present alongside any other tag, the
clear-marker operation writes an empty tag list, removing every tag. -/
theorem C10_unset_clears_all_tags (tags : List String) (other : String)
    (h1 : TAG_XATTR_DROP_ITEM_VALUE ∈ tags) (h2 : other ∈ tags)
    (h3 : other ≠ TAG_XATTR_DROP_ITEM_VALUE) :
    (unsetFileDropAttr tags).1 = [] ∧ other ∉ (unsetFileDropAttr tags).1
    ∧ (unsetFileDropAttr tags).2 = true := by
  have hf : (unsetFileDropAttr tags).1 = [] := by
    simp [unsetFileDropAttr, h1]
  exact ⟨hf, by simp [hf], by simp [unsetFileDropAttr, h1]⟩

theorem C10_unset_clears_all_tags_witness :
    TAG_XATTR_DROP_ITEM_VALUE ∈ ["Dropped\n1", "Red"]
    ∧ "Red" ∈ ["Dropped\n1", "Red"] ∧ "Red" ≠ TAG_XATTR_DROP_ITEM_VALUE
    ∧ ((unsetFileDropAttr ["Dropped\n1", "Red"]).1 = []
      ∧ "Red" ∉ (unsetFileDropAttr ["Dropped\n1", "Red"]).1
      ∧ (unsetFileDropAttr ["Dropped\n1", "Red"]).2 = true) := by
  exact ⟨by decide, by decide, by decide,
    C10_unset_clears_all_tags ["Dropped\n1", "Red"] "Red" (by decide) (by decide)
      (by decide)⟩

theorem setAttrB_fst (a : String → Bool) (p q : String) :
    (setAttrB a p).1 q = if q = p then true else a q := by
  by_cases h : a p = true
  · by_cases hq : q = p
    · subst hq; simp [setAttrB, h]
    · simp [setAttrB, h, hq]
  · simp [setAttrB, h]

theorem unsetAttrB_fst (a : String → Bool) (p q : String) :
    (unsetAttrB a p).1 q = if q = p then false else a q := by
  by_cases h : a p = true
  · simp [unsetAttrB, h]
  · by_cases hq : q = p
    · subst hq; simp [unsetAttrB, h, Bool.of_not_eq_true h]
    · simp [unsetAttrB, h, hq]

theorem setAttrB_events (a : String → Bool) (p : String) :
    ∀ e ∈ (setAttrB a p).2, e = AEvent.attrWrite p true := by
  by_cases h : a p = true <;> simp [setAttrB, h]

theorem unsetAttrB_events (a : String → Bool) (p : String) :
    ∀ e ∈ (unsetAttrB a p).2, e = AEvent.attrWrite p false := by
  by_cases h : a p = true <;> simp [unsetAttrB, h]

theorem foldSetAttr_fst (L : List String) : ∀ (a : String → Bool) (p : String),
    (foldSetAttr a L).1 p = if p ∈ L then true else a p := by
  induction L with
  | nil => intro a p; simp [foldSetAttr]
  | cons q rest ih =>
    intro a p
    simp only [foldSetAttr]
    rw [ih]
    by_cases hm : p ∈ rest
    · simp [hm]
    · by_cases hpq : p = q
      · subst hpq; simp [hm, setAttrB_fst]
      · simp [hm, hpq, setAttrB_fst]

theorem foldUnsetAttr_fst (L : List String) : ∀ (a : String → Bool) (p : String),
    (foldUnsetAttr a L).1 p = if p ∈ L then false else a p := by
  induction L with
  | nil => intro a p; simp [foldUnsetAttr]
  | cons q rest ih =>
    intro a p
    simp only [foldUnsetAttr]
    rw [ih]
    by_cases hm : p ∈ rest
    · simp [hm]
    · by_cases hpq : p = q
      · subst hpq; simp [hm, unsetAttrB_fst]
      · simp [hm, hpq, unsetAttrB_fst]

theorem foldSetAttr_events (L : List String) : ∀ (a : String → Bool),
    ∀ e ∈ (foldSetAttr a L).2, ∃ q, q ∈ L ∧ e = AEvent.attrWrite q true := by
  induction L with
  | nil => intro a e he; simp [foldSetAttr] at he
  | cons x rest ih =>
    intro a e he
    simp only [foldSetAttr, List.mem_append] at he
    rcases he with he | he
    · exact ⟨x, List.mem_cons_self x rest, setAttrB_events a x e he⟩
    · obtain ⟨q, hq, he⟩ := ih _ e he
      exact ⟨q, List.mem_cons_of_mem x hq, he⟩

theorem foldUnsetAttr_events (L : List String) : ∀ (a : String → Bool),
    ∀ e ∈ (foldUnsetAttr a L).2, ∃ q, q ∈ L ∧ e = AEvent.attrWrite q false := by
  induction L with
  | nil => intro a e he; simp [foldUnsetAttr] at he
  | cons x rest ih =>
    intro a e he
    simp only [foldUnsetAttr, List.mem_append] at he
    rcases he with he | he
    · exact ⟨x, List.mem_cons_self x rest, unsetAttrB_events a x e he⟩
    · obtain ⟨q, hq, he⟩ := ih _ e he
      exact ⟨q, List.mem_cons_of_mem x hq, he⟩

theorem sendPaths_none_nil (r : Repo) : sendPathsOf r none = [] := by
  refine List.filter_eq_nil.mpr ?_
  intro p hp
  simp [receivedPathsOf, hp]

theorem mem_sendPaths (r : Repo) (since : Option Nat) (p : String) :
    p ∈ sendPathsOf r since ↔ p ∈ r.trackedPaths ∧ p ∉ receivedPathsOf r since := by
  simp [sendPathsOf]

theorem mem_uncommitted (r : Repo) (p : String) :
    p ∈ uncommittedOf r ↔ p ∈ r.trackedPaths ∧ r.mtime p > r.commitTime := by
  simp [uncommittedOf]

theorem bookkeeping_attr_not_received (r : Repo) (t : Nat) (p : String)
    (h : p ∉ receivedPathsOf r (some t)) :
    (bookkeeping r (some t)).1 p = r.hasDropAttr p := by
  have h2 : p ∉ (receivedPathsOf r (some t)).filter
      fun q => decide (q ∉ r.trackedDroppedPaths) := by
    intro hmem; exact h (List.mem_filter.mp hmem).1
  have h1 : p ∉ (receivedPathsOf r (some t)).filter
      fun q => decide (q ∈ r.trackedDroppedPaths) := by
    intro hmem; exact h (List.mem_filter.mp hmem).1
  simp only [bookkeeping, Option.isNone_some, Bool.false_eq_true, if_false]
  rw [foldUnsetAttr_fst, if_neg h2, foldSetAttr_fst, if_neg h1]

theorem bookkeeping_attr_none (r : Repo) (p : String)
    (hp : p ∈ r.trackedPaths) (hu : p ∉ r.untrackedPaths) :
    ((bookkeeping r none).1 p = true ↔ p ∈ r.trackedDroppedPaths) := by
  simp only [bookkeeping, Option.isNone_none, if_true, receivedPathsOf]
  rw [foldUnsetAttr_fst, if_neg hu, foldUnsetAttr_fst]
  by_cases hd : p ∈ r.trackedDroppedPaths
  · have h2 : p ∉ r.trackedPaths.filter fun q => decide (q ∉ r.trackedDroppedPaths) := by
      simp [List.mem_filter, hd]
    have h1 : p ∈ r.trackedPaths.filter fun q => decide (q ∈ r.trackedDroppedPaths) := by
      simp [List.mem_filter, hp, hd]
    rw [if_neg h2, foldSetAttr_fst, if_pos h1]
    simp [hd]
  · have h2 : p ∈ r.trackedPaths.filter fun q => decide (q ∉ r.trackedDroppedPaths) := by
      simp [List.mem_filter, hp, hd]
    rw [if_pos h2]
    simp [hd]

theorem bookkeeping_events (r : Repo) (since : Option Nat) :
    ∀ e ∈ (bookkeeping r since).2, ∃ q b, e = AEvent.attrWrite q b ∧
      (q ∈ receivedPathsOf r since ∨ (since.isNone = true ∧ q ∈ r.untrackedPaths)) := by
  intro e he
  simp only [bookkeeping, List.mem_append] at he
  rcases he with (he | he) | he
  · obtain ⟨q, hq, heq⟩ := foldSetAttr_events _ _ e he
    exact ⟨q, true, heq, Or.inl (List.mem_filter.mp hq).1⟩
  · obtain ⟨q, hq, heq⟩ := foldUnsetAttr_events _ _ e he
    exact ⟨q, false, heq, Or.inl (List.mem_filter.mp hq).1⟩
  · cases since with
    | none =>
      simp only [Option.isNone_none, if_true] at he
      obtain ⟨q, hq, heq⟩ := foldUnsetAttr_events _ _ e he
      exact ⟨q, false, heq, Or.inr ⟨rfl, hq⟩⟩
    | some t => simp at he

theorem probeStep_attr (s : SendState) : (probeStep s).attr = s.attr := by
  by_cases h : s.hasTested = true <;> simp [probeStep, h]

theorem probeStep_events (s : SendState) :
    (probeStep s).events = s.events ++ (if s.hasTested then [] else [AEvent.probe]) := by
  by_cases h : s.hasTested = true <;> simp [probeStep, h]

theorem probeStep_hasTested (s : SendState) : (probeStep s).hasTested = true := by
  by_cases h : s.hasTested = true <;> simp [probeStep, h]

theorem probeStep_isRepoOk (s : SendState) : (probeStep s).isRepoOk = s.isRepoOk := by
  by_cases h : s.hasTested = true <;> simp [probeStep, h]

theorem hsp_agree (r : Repo) (unc : List String) (s : SendState) (p : String)
    (h : s.attr p = decide (p ∈ r.trackedDroppedPaths)) :
    handleSendPath r unc s p = s := by
  by_cases hd : p ∈ r.trackedDroppedPaths
  · have ha : s.attr p = true := by simp [h, hd]
    simp [handleSendPath, ha, hd]
  · have ha : s.attr p = false := by simp [h, hd]
    simp [handleSendPath, ha, hd]

theorem hsp_disagree (r : Repo) (unc : List String) (s : SendState) (p : String)
    (hne : ¬ s.attr p = decide (p ∈ r.trackedDroppedPaths)) :
    ∃ es, (handleSendPath r unc s p).events
        = s.events ++ (if s.hasTested then [] else [AEvent.probe]) ++ es
      ∧ (handleSendPath r unc s p).hasTested = true
      ∧ (∀ e ∈ es, eventPath e = some p)
      ∧ (p ∈ unc → ∀ e ∈ es, isContentEvent e = false)
      ∧ ∀ q, q ≠ p → (handleSendPath r unc s p).attr q = s.attr q := by
  by_cases hd : p ∈ r.trackedDroppedPaths
  · have ha : s.attr p = false := by simpa [hd] using hne
    by_cases hu : p ∈ unc
    · refine ⟨[AEvent.attrWrite p true], ?_, ?_, ?_, ?_, ?_⟩ <;>
        simp [handleSendPath, ha, hd, hu, probeStep_events, probeStep_attr,
          probeStep_hasTested, setAttrB, eventPath, isContentEvent]
      intro q hq hq2
      exact absurd hq2 hq
    · by_cases hg : (getLoop (r.getResult p) GET_MAX_CT).2 = true
      · refine ⟨List.replicate (getLoop (r.getResult p) GET_MAX_CT).1
          (AEvent.fetch p), ?_, ?_, ?_, ?_, ?_⟩ <;>
          simp [handleSendPath, ha, hd, hu, hg, probeStep_events, probeStep_attr,
            probeStep_hasTested, unsetAttrB, eventPath, isContentEvent,
            List.mem_replicate]
      · refine ⟨List.replicate (getLoop (r.getResult p) GET_MAX_CT).1
          (AEvent.fetch p), ?_, ?_, ?_, ?_, ?_⟩ <;>
          simp [handleSendPath, ha, hd, hu, hg, probeStep_events, probeStep_attr,
            probeStep_hasTested, eventPath, isContentEvent, List.mem_replicate]
  · have ha : s.attr p = true := by simpa [hd] using hne
    by_cases hu : p ∈ unc
    · refine ⟨[AEvent.attrWrite p false], ?_, ?_, ?_, ?_, ?_⟩ <;>
        simp [handleSendPath, ha, hd, hu, probeStep_events, probeStep_attr,
          probeStep_hasTested, unsetAttrB, eventPath, isContentEvent]
      intro q hq _
      exact hq
    · by_cases hdr : r.dropResult p = true
      · refine ⟨[AEvent.drop p], ?_, ?_, ?_, ?_, ?_⟩ <;>
          simp [handleSendPath, ha, hd, hu, hdr, probeStep_events, probeStep_attr,
            probeStep_hasTested, setAttrB, eventPath, isContentEvent]
      · refine ⟨[AEvent.drop p], ?_, ?_, ?_, ?_, ?_⟩ <;>
          simp [handleSendPath, ha, hd, hu, hdr, probeStep_events, probeStep_attr,
            probeStep_hasTested, eventPath, isContentEvent]

theorem hsp_attr_frame (r : Repo) (unc : List String) (s : SendState) (p q : String)
    (hq : q ≠ p) : (handleSendPath r unc s p).attr q = s.attr q := by
  by_cases h : s.attr p = decide (p ∈ r.trackedDroppedPaths)
  · rw [hsp_agree r unc s p h]
  · obtain ⟨es, _, _, _, _, hframe⟩ := hsp_disagree r unc s p h
    exact hframe q hq

theorem hsp_events_mem (r : Repo) (unc : List String) (s : SendState) (p : String) :
    ∀ e ∈ (handleSendPath r unc s p).events,
      e ∈ s.events ∨ eventPath e = none ∨ eventPath e = some p := by
  intro e he
  by_cases h : s.attr p = decide (p ∈ r.trackedDroppedPaths)
  · rw [hsp_agree r unc s p h] at he; exact Or.inl he
  · obtain ⟨es, hev, _, hpath, _, _⟩ := hsp_disagree r unc s p h
    rw [hev] at he
    simp only [List.mem_append] at he
    rcases he with (he | he) | he
    · exact Or.inl he
    · right; left
      by_cases ht : s.hasTested = true
      · simp [ht] at he
      · simp [ht] at he; subst he; rfl
    · exact Or.inr (Or.inr (hpath e he))

theorem hsp_content_mem (r : Repo) (unc : List String) (s : SendState) (p : String) :
    ∀ e, isContentEvent e = true → e ∈ (handleSendPath r unc s p).events →
      e ∈ s.events ∨ (eventPath e = some p ∧ p ∉ unc) := by
  intro e hc he
  by_cases h : s.attr p = decide (p ∈ r.trackedDroppedPaths)
  · rw [hsp_agree r unc s p h] at he; exact Or.inl he
  · obtain ⟨es, hev, _, hpath, hnc, _⟩ := hsp_disagree r unc s p h
    rw [hev] at he
    simp only [List.mem_append] at he
    rcases he with (he | he) | he
    · exact Or.inl he
    · by_cases ht : s.hasTested = true
      · simp [ht] at he
      · simp [ht] at he; subst he; simp [isContentEvent] at hc
    · refine Or.inr ⟨hpath e he, ?_⟩
      intro hu
      have hfalse := hnc hu e he
      rw [hc] at hfalse
      exact Bool.noConfusion hfalse

theorem countProbe_append (a b : List AEvent) :
    countProbe (a ++ b) = countProbe a + countProbe b := by
  simp [countProbe, List.filter_append]

theorem countProbe_zero_of_no_probe (es : List AEvent)
    (h : ∀ e ∈ es, e ≠ AEvent.probe) : countProbe es = 0 := by
  simp only [countProbe, List.length_eq_zero]
  refine List.filter_eq_nil.mpr ?_
  intro e he
  simp only [decide_eq_true_eq]
  exact h e he

theorem hsp_probeCount (r : Repo) (unc : List String) (s : SendState) (p : String) :
    countProbe (handleSendPath r unc s p).events
      + (if (handleSendPath r unc s p).hasTested = true then 0 else 1)
    = countProbe s.events + (if s.hasTested = true then 0 else 1) := by
  by_cases h : s.attr p = decide (p ∈ r.trackedDroppedPaths)
  · rw [hsp_agree r unc s p h]
  · obtain ⟨es, hev, htst, hpath, _, _⟩ := hsp_disagree r unc s p h
    have hes : countProbe es = 0 := by
      refine countProbe_zero_of_no_probe es ?_
      intro e he heq
      have := hpath e he
      rw [heq] at this
      simp [eventPath] at this
    rw [hev, htst, countProbe_append, countProbe_append, hes]
    by_cases ht : s.hasTested = true <;> simp [ht, countProbe]

theorem foldl_attr_frame (r : Repo) (unc : List String) :
    ∀ (L : List String) (s : SendState) (p : String), p ∉ L →
      (L.foldl (handleSendPath r unc) s).attr p = s.attr p := by
  intro L
  induction L with
  | nil => intro s p _; rfl
  | cons q rest ih =>
    intro s p hp
    have hq : p ≠ q := fun h => hp (h ▸ List.mem_cons_self q rest)
    rw [List.foldl_cons]
    rw [ih _ p (fun h => hp (List.mem_cons_of_mem q h))]
    exact hsp_attr_frame r unc s q p hq

theorem foldl_content_mem (r : Repo) (unc : List String) :
    ∀ (L : List String) (s : SendState) (e : AEvent), isContentEvent e = true →
      e ∈ (L.foldl (handleSendPath r unc) s).events →
      e ∈ s.events ∨ ∃ q, q ∈ L ∧ eventPath e = some q ∧ q ∉ unc := by
  intro L
  induction L with
  | nil => intro s e _ he; exact Or.inl he
  | cons x rest ih =>
    intro s e hc he
    rw [List.foldl_cons] at he
    rcases ih _ e hc he with he1 | ⟨q, hq, hpth, hu⟩
    · rcases hsp_content_mem r unc s x e hc he1 with h | ⟨hpth, hu⟩
      · exact Or.inl h
      · exact Or.inr ⟨x, List.mem_cons_self x rest, hpth, hu⟩
    · exact Or.inr ⟨q, List.mem_cons_of_mem x hq, hpth, hu⟩

theorem foldl_events_on (r : Repo) (unc : List String) :
    ∀ (L : List String) (s : SendState) (p : String),
      (p ∈ L → s.attr p = decide (p ∈ r.trackedDroppedPaths)) →
      (∀ e ∈ s.events, isEventOn p e = false) →
      (∀ e ∈ (L.foldl (handleSendPath r unc) s).events, isEventOn p e = false)
      ∧ (L.foldl (handleSendPath r unc) s).attr p = s.attr p := by
  intro L
  induction L with
  | nil => intro s p _ hev; exact ⟨hev, rfl⟩
  | cons x rest ih =>
    intro s p hagr hev
    rw [List.foldl_cons]
    by_cases hx : x = p
    · subst hx
      have hag : s.attr x = decide (x ∈ r.trackedDroppedPaths) :=
        hagr (List.mem_cons_self x rest)
      rw [hsp_agree r unc s x hag]
      exact ih s x (fun _ => hag) hev
    · have hattr : (handleSendPath r unc s x).attr p = s.attr p :=
        hsp_attr_frame r unc s x p (fun h => hx h.symm)
      have hev1 : ∀ e ∈ (handleSendPath r unc s x).events, isEventOn p e = false := by
        intro e he
        rcases hsp_events_mem r unc s x e he with h | h | h
        · exact hev e h
        · simp [isEventOn, h]
        · simp [isEventOn, h, hx]
      have hres := ih (handleSendPath r unc s x) p
        (fun hmem => by rw [hattr]; exact hagr (List.mem_cons_of_mem x hmem)) hev1
      exact ⟨hres.1, hres.2.trans hattr⟩

theorem foldl_probeCount (r : Repo) (unc : List String) :
    ∀ (L : List String) (s : SendState),
      countProbe ((L.foldl (handleSendPath r unc) s).events)
        + (if (L.foldl (handleSendPath r unc) s).hasTested = true then 0 else 1)
      = countProbe s.events + (if s.hasTested = true then 0 else 1) := by
  intro L
  induction L with
  | nil => intro s; rfl
  | cons x rest ih =>
    intro s
    rw [List.foldl_cons]
    exact (ih (handleSendPath r unc s x)).trans (hsp_probeCount r unc s x)

theorem foldl_probe_source (r : Repo) (unc : List String) :
    ∀ (L : List String) (s : SendState), s.hasTested = false →
      AEvent.probe ∈ (L.foldl (handleSendPath r unc) s).events →
      AEvent.probe ∈ s.events
      ∨ ∃ q, q ∈ L ∧ ¬ s.attr q = decide (q ∈ r.trackedDroppedPaths) := by
  intro L
  induction L with
  | nil => intro s _ hp; exact Or.inl hp
  | cons x rest ih =>
    intro s ht hp
    by_cases hx : s.attr x = decide (x ∈ r.trackedDroppedPaths)
    · rw [List.foldl_cons, hsp_agree r unc s x hx] at hp
      rcases ih s ht hp with h | ⟨q, hq, hne⟩
      · exact Or.inl h
      · exact Or.inr ⟨q, List.mem_cons_of_mem x hq, hne⟩
    · exact Or.inr ⟨x, List.mem_cons_self x rest, hx⟩

theorem foldl_all_agree (r : Repo) (unc : List String) :
    ∀ (L : List String) (s : SendState),
      (∀ q ∈ L, s.attr q = decide (q ∈ r.trackedDroppedPaths)) →
      L.foldl (handleSendPath r unc) s = s := by
  intro L
  induction L with
  | nil => intro s _; rfl
  | cons x rest ih =>
    intro s h
    rw [List.foldl_cons, hsp_agree r unc s x (h x (List.mem_cons_self x rest))]
    exact ih s (fun q hq => h q (List.mem_cons_of_mem x hq))

theorem foldl_attr_of_nodup (r : Repo) (unc : List String) (v : Bool) :
    ∀ (L : List String) (s : SendState) (p : String), L.Nodup → p ∈ L →
      (∀ t : SendState, t.attr p = s.attr p → (handleSendPath r unc t p).attr p = v) →
      (L.foldl (handleSendPath r unc) s).attr p = v := by
  intro L
  induction L with
  | nil => intro s p _ hp; cases hp
  | cons x rest ih =>
    intro s p hnd hp hstep
    have hxrest : x ∉ rest := (List.nodup_cons.mp hnd).1
    rw [List.foldl_cons]
    rcases List.mem_cons.mp hp with heq | hmem
    · subst heq
      rw [foldl_attr_frame r unc rest _ p hxrest]
      exact hstep s rfl
    · have hx : x ≠ p := fun h => hxrest (h ▸ hmem)
      have hattr : (handleSendPath r unc s x).attr p = s.attr p :=
        hsp_attr_frame r unc s x p (fun h => hx h.symm)
      exact ih (handleSendPath r unc s x) p (List.nodup_cons.mp hnd).2 hmem
        (fun t htp => hstep t (htp.trans hattr))

theorem hsp_evict_unc (r : Repo) (unc : List String) (s : SendState) (p : String)
    (ha : s.attr p = true) (hd : p ∉ r.trackedDroppedPaths) (hu : p ∈ unc) :
    (handleSendPath r unc s p).attr p = false := by
  simp [handleSendPath, ha, hd, hu, probeStep_attr, unsetAttrB]

theorem hsp_fetch_unc (r : Repo) (unc : List String) (s : SendState) (p : String)
    (ha : s.attr p = false) (hd : p ∈ r.trackedDroppedPaths) (hu : p ∈ unc) :
    (handleSendPath r unc s p).attr p = true := by
  simp [handleSendPath, ha, hd, hu, probeStep_attr, setAttrB]

/-- C1: a tracked file with mtime strictly newer than the last-commit time is
never fetched or dropped by a pass; when it is a send path in the eviction
configuration the marker is cleared and in the fetch configuration it is set. -/
theorem C1_uncommitted_marker_only (r : Repo) (since : Option Nat) (p : String)
    (hnd : r.trackedPaths.Nodup) (hmt : r.mtime p > r.commitTime) :
    (AEvent.fetch p ∉ (allocateRepo r since).events
      ∧ AEvent.drop p ∉ (allocateRepo r since).events)
    ∧ (p ∈ sendPathsOf r since → r.hasDropAttr p = true →
        p ∉ r.trackedDroppedPaths → (allocateRepo r since).attr p = false)
    ∧ (p ∈ sendPathsOf r since → r.hasDropAttr p = false →
        p ∈ r.trackedDroppedPaths → (allocateRepo r since).attr p = true) := by
  have hbook : ∀ x, isContentEvent x = true → x ∉ (bookkeeping r since).2 := by
    intro x hc hx
    obtain ⟨q, b, heq, _⟩ := bookkeeping_events r since x hx
    rw [heq] at hc
    simp [isContentEvent] at hc
  have hsattr : p ∈ sendPathsOf r since →
      (initialSendState r since).attr p = r.hasDropAttr p := by
    intro hp
    cases since with
    | none => rw [sendPaths_none_nil] at hp; cases hp
    | some t =>
      exact bookkeeping_attr_not_received r t p (mem_sendPaths r (some t) p |>.mp hp).2
  by_cases hlen : (sendPathsOf r since).length > 0
  · have hres : allocateRepo r since
        = (sendPathsOf r since).foldl (handleSendPath r (uncommittedOf r))
            (initialSendState r since) := by
      simp [allocateRepo, hlen]
    refine ⟨⟨?_, ?_⟩, ?_, ?_⟩
    · intro hin
      rw [hres] at hin
      rcases foldl_content_mem r (uncommittedOf r) _ _ (AEvent.fetch p) rfl hin
        with h | ⟨q, hq, hpth, hu⟩
      · exact hbook (AEvent.fetch p) rfl h
      · simp only [eventPath, Option.some_inj] at hpth
        subst hpth
        exact hu (mem_uncommitted r p |>.mpr
          ⟨(mem_sendPaths r since p |>.mp hq).1, hmt⟩)
    · intro hin
      rw [hres] at hin
      rcases foldl_content_mem r (uncommittedOf r) _ _ (AEvent.drop p) rfl hin
        with h | ⟨q, hq, hpth, hu⟩
      · exact hbook (AEvent.drop p) rfl h
      · simp only [eventPath, Option.some_inj] at hpth
        subst hpth
        exact hu (mem_uncommitted r p |>.mpr
          ⟨(mem_sendPaths r since p |>.mp hq).1, hmt⟩)
    · intro hp ha hd
      rw [hres]
      refine foldl_attr_of_nodup r (uncommittedOf r) false _ _ p
        (List.Nodup.filter _ hnd) hp ?_
      intro t htp
      have hta : t.attr p = true := by rw [htp, hsattr hp, ha]
      exact hsp_evict_unc r (uncommittedOf r) t p hta hd
        (mem_uncommitted r p |>.mpr ⟨(mem_sendPaths r since p |>.mp hp).1, hmt⟩)
    · intro hp ha hd
      rw [hres]
      refine foldl_attr_of_nodup r (uncommittedOf r) true _ _ p
        (List.Nodup.filter _ hnd) hp ?_
      intro t htp
      have hta : t.attr p = false := by rw [htp, hsattr hp, ha]
      exact hsp_fetch_unc r (uncommittedOf r) t p hta hd
        (mem_uncommitted r p |>.mpr ⟨(mem_sendPaths r since p |>.mp hp).1, hmt⟩)
  · have hres : allocateRepo r since = initialSendState r since := by
      simp [allocateRepo, hlen]
    have hvac : p ∉ sendPathsOf r since := by
      intro hp
      exact hlen (List.length_pos.mpr (List.ne_nil_of_mem hp))
    refine ⟨⟨?_, ?_⟩, ?_, ?_⟩
    · intro hin; rw [hres] at hin; exact hbook (AEvent.fetch p) rfl hin
    · intro hin; rw [hres] at hin; exact hbook (AEvent.drop p) rfl hin
    · intro hp; exact absurd hp hvac
    · intro hp; exact absurd hp hvac

theorem C1_uncommitted_marker_only_witness :
    repoC1w.trackedPaths.Nodup ∧ repoC1w.mtime "a" > repoC1w.commitTime
    ∧ ((AEvent.fetch "a" ∉ (allocateRepo repoC1w (some 0)).events
        ∧ AEvent.drop "a" ∉ (allocateRepo repoC1w (some 0)).events)
      ∧ ("a" ∈ sendPathsOf repoC1w (some 0) → repoC1w.hasDropAttr "a" = true →
          "a" ∉ repoC1w.trackedDroppedPaths →
          (allocateRepo repoC1w (some 0)).attr "a" = false)
      ∧ ("a" ∈ sendPathsOf repoC1w (some 0) → repoC1w.hasDropAttr "a" = false →
          "a" ∈ repoC1w.trackedDroppedPaths →
          (allocateRepo repoC1w (some 0)).attr "a" = true)) :=
  ⟨by decide, by decide,
    C1_uncommitted_marker_only repoC1w (some 0) "a" (by decide) (by decide)⟩

/-- C2: after a full (no-watermark) pass, every tracked file's marker is set
iff the file is in trackedDroppedPaths, and no fetch or drop is invoked
because sendPaths is empty. -/
theorem C2_full_pass_marker_sync (r : Repo)
    (hdisj : ∀ p ∈ r.untrackedPaths, p ∉ r.trackedPaths) :
    (∀ p ∈ r.trackedPaths,
      ((allocateRepo r none).attr p = true ↔ p ∈ r.trackedDroppedPaths))
    ∧ (∀ x, AEvent.fetch x ∉ (allocateRepo r none).events
        ∧ AEvent.drop x ∉ (allocateRepo r none).events)
    ∧ sendPathsOf r none = [] := by
  have hsend := sendPaths_none_nil r
  have hres : allocateRepo r none = initialSendState r none := by
    simp [allocateRepo, hsend]
  refine ⟨?_, ?_, hsend⟩
  · intro p hp
    rw [hres]
    exact bookkeeping_attr_none r p hp (fun h => hdisj p h hp)
  · intro x
    constructor
    · intro hin
      rw [hres] at hin
      obtain ⟨q, b, heq, _⟩ := bookkeeping_events r none _ hin
      cases heq
    · intro hin
      rw [hres] at hin
      obtain ⟨q, b, heq, _⟩ := bookkeeping_events r none _ hin
      cases heq

theorem C2_full_pass_marker_sync_witness :
    (∀ p ∈ repoC2w.untrackedPaths, p ∉ repoC2w.trackedPaths)
    ∧ ((∀ p ∈ repoC2w.trackedPaths,
        ((allocateRepo repoC2w none).attr p = true ↔ p ∈ repoC2w.trackedDroppedPaths))
      ∧ (∀ x, AEvent.fetch x ∉ (allocateRepo repoC2w none).events
          ∧ AEvent.drop x ∉ (allocateRepo repoC2w none).events)
      ∧ sendPathsOf repoC2w none = []) :=
  ⟨by decide, C2_full_pass_marker_sync repoC2w (by decide)⟩

theorem C4_counterexample_probe_without_content_op :
    AEvent.probe ∈ (allocateRepo repoC4x (some 0)).events
    ∧ (allocateRepo repoC4x (some 0)).events.filter isContentEvent = []
    ∧ (allocateRepo repoC4x (some 0)).events
        = [AEvent.probe, AEvent.attrWrite "a" false] := by decide

/-- C4 (amended): the pass probes remotes at most once per repository, and
only when some send path's marker disagrees with the store's presence report,
even when the uncommitted-edit guard then suppresses the content operation; a
repository with no send paths, or all send paths agreeing, never probes. -/
theorem C4_amended_probe_lazy (r : Repo) (since : Option Nat) :
    countProbe (allocateRepo r since).events ≤ 1
    ∧ (AEvent.probe ∈ (allocateRepo r since).events →
        ∃ p, p ∈ sendPathsOf r since
          ∧ ¬ r.hasDropAttr p = decide (p ∈ r.trackedDroppedPaths))
    ∧ (sendPathsOf r since = [] → AEvent.probe ∉ (allocateRepo r since).events)
    ∧ ((∀ p ∈ sendPathsOf r since,
          r.hasDropAttr p = decide (p ∈ r.trackedDroppedPaths)) →
        AEvent.probe ∉ (allocateRepo r since).events) := by
  have hbook0 : countProbe (bookkeeping r since).2 = 0 := by
    refine countProbe_zero_of_no_probe _ ?_
    intro e he heq
    obtain ⟨q, b, heqw, _⟩ := bookkeeping_events r since e he
    rw [heq] at heqw
    cases heqw
  have hbookmem : AEvent.probe ∉ (bookkeeping r since).2 := by
    intro hin
    obtain ⟨q, b, heqw, _⟩ := bookkeeping_events r since _ hin
    cases heqw
  have hsattr : ∀ p, p ∈ sendPathsOf r since →
      (initialSendState r since).attr p = r.hasDropAttr p := by
    intro p hp
    cases since with
    | none => rw [sendPaths_none_nil] at hp; cases hp
    | some t =>
      exact bookkeeping_attr_not_received r t p (mem_sendPaths r (some t) p |>.mp hp).2
  by_cases hlen : (sendPathsOf r since).length > 0
  · have hres : allocateRepo r since
        = (sendPathsOf r since).foldl (handleSendPath r (uncommittedOf r))
            (initialSendState r since) := by
      simp [allocateRepo, hlen]
    refine ⟨?_, ?_, ?_, ?_⟩
    · rw [hres]
      have hcnt := foldl_probeCount r (uncommittedOf r) (sendPathsOf r since)
        (initialSendState r since)
      simp [initialSendState, hbook0] at hcnt
      calc countProbe ((sendPathsOf r since).foldl
              (handleSendPath r (uncommittedOf r)) (initialSendState r since)).events
          ≤ countProbe ((sendPathsOf r since).foldl
              (handleSendPath r (uncommittedOf r)) (initialSendState r since)).events
            + (if ((sendPathsOf r since).foldl
                (handleSendPath r (uncommittedOf r))
                (initialSendState r since)).hasTested = true then 0 else 1) :=
            Nat.le_add_right _ _
        _ = 1 := hcnt
    · intro hin
      rw [hres] at hin
      rcases foldl_probe_source r (uncommittedOf r) _ _ rfl hin with h | ⟨q, hq, hne⟩
      · exact absurd h hbookmem
      · exact ⟨q, hq, fun heq => hne (by rw [hsattr q hq, heq])⟩
    · intro hs
      rw [hs] at hlen
      simp at hlen
    · intro hall hin
      rw [hres, foldl_all_agree r (uncommittedOf r) _ _
        (fun q hq => by rw [hsattr q hq]; exact hall q hq)] at hin
      exact absurd hin hbookmem
  · have hres : allocateRepo r since = initialSendState r since := by
      simp [allocateRepo, hlen]
    rw [hres]
    refine ⟨?_, fun hin => absurd hin hbookmem,
      fun _ hin => absurd hin hbookmem,
      fun _ hin => absurd hin hbookmem⟩
    have h0 : countProbe (initialSendState r since).events = 0 := hbook0
    omega

theorem C4_amended_probe_lazy_witness :
    sendPathsOf repoC4w none = []
    ∧ AEvent.probe ∉ (allocateRepo repoC4w none).events :=
  ⟨by decide, (C4_amended_probe_lazy repoC4w none).2.2.1 (by decide)⟩

/-- C9: a send path whose marker agrees with the store's presence report gets
no fetch, no drop and no marker write during the pass and its marker is
unchanged; the platform marker operations are no-ops when the marker is
already in the requested state. -/
theorem C9_agreeing_file_untouched (r : Repo) (since : Option Nat) (p : String)
    (hp : p ∈ sendPathsOf r since)
    (hagree : r.hasDropAttr p = decide (p ∈ r.trackedDroppedPaths)) :
    (∀ e ∈ (allocateRepo r since).events, isEventOn p e = false)
    ∧ (allocateRepo r since).attr p = r.hasDropAttr p
    ∧ (∀ ts, TAG_XATTR_DROP_ITEM_VALUE ∈ ts → setFileDropAttr ts = (ts, false))
    ∧ (∀ ts, TAG_XATTR_DROP_ITEM_VALUE ∉ ts → unsetFileDropAttr ts = (ts, false)) := by
  cases since with
  | none => rw [sendPaths_none_nil] at hp; cases hp
  | some t =>
    have hrecv : p ∉ receivedPathsOf r (some t) := (mem_sendPaths r (some t) p |>.mp hp).2
    have hs0 : (initialSendState r (some t)).attr p = r.hasDropAttr p :=
      bookkeeping_attr_not_received r t p hrecv
    have hbase : ∀ e ∈ (initialSendState r (some t)).events, isEventOn p e = false := by
      intro e he
      obtain ⟨q, b, heq, hq⟩ := bookkeeping_events r (some t) e he
      rcases hq with hq | hq
      · have hqp : q ≠ p := fun h => hrecv (h ▸ hq)
        simp [heq, isEventOn, eventPath, hqp]
      · simp at hq
    have hlen : (sendPathsOf r (some t)).length > 0 :=
      List.length_pos.mpr (List.ne_nil_of_mem hp)
    have hres : allocateRepo r (some t)
        = (sendPathsOf r (some t)).foldl (handleSendPath r (uncommittedOf r))
            (initialSendState r (some t)) := by
      simp [allocateRepo, hlen]
    have hfold := foldl_events_on r (uncommittedOf r) (sendPathsOf r (some t))
      (initialSendState r (some t)) p (fun _ => by rw [hs0]; exact hagree) hbase
    refine ⟨by rw [hres]; exact hfold.1, by rw [hres]; exact hfold.2.trans hs0, ?_, ?_⟩
    · intro ts h; simp [setFileDropAttr, h]
    · intro ts h; simp [unsetFileDropAttr, h]

theorem C9_agreeing_file_untouched_witness :
    "a" ∈ sendPathsOf repoC9w (some 0)
    ∧ repoC9w.hasDropAttr "a" = decide ("a" ∈ repoC9w.trackedDroppedPaths)
    ∧ ((∀ e ∈ (allocateRepo repoC9w (some 0)).events, isEventOn "a" e = false)
      ∧ (allocateRepo repoC9w (some 0)).attr "a" = repoC9w.hasDropAttr "a"
      ∧ (∀ ts, TAG_XATTR_DROP_ITEM_VALUE ∈ ts → setFileDropAttr ts = (ts, false))
      ∧ (∀ ts, TAG_XATTR_DROP_ITEM_VALUE ∉ ts → unsetFileDropAttr ts = (ts, false))) :=
  ⟨by decide, by decide,
    C9_agreeing_file_untouched repoC9w (some 0) "a" (by decide) (by decide)⟩

theorem find_key_isSome (m : List (String × Bool)) (p : String) :
    ((m.find? fun e => decide (e.1 = p)).isSome = true) ↔ p ∈ m.map Prod.fst := by
  induction m with
  | nil => simp [List.find?]
  | cons e rest ih =>
    by_cases h : e.1 = p
    · simp [List.find?_cons, h]
    · simp [List.find?_cons, h, ih, Ne.symm h]

theorem lookupEntry_isSome_iff (m : List (String × Bool)) (p : String) :
    ((lookupEntry m p).isSome = true) ↔ p ∈ m.map Prod.fst := by
  have h : (lookupEntry m p).isSome
      = (m.find? fun e => decide (e.1 = p)).isSome := by
    rw [lookupEntry]
    cases m.find? fun e => decide (e.1 = p) <;> rfl
  rw [h]
  exact find_key_isSome m p

theorem map_fst_replace (m : List (String × Bool)) (p : String) (b : Bool) :
    (m.map fun e => if e.1 = p then (e.1, b) else e).map Prod.fst = m.map Prod.fst := by
  induction m with
  | nil => rfl
  | cons e rest ih => by_cases h : e.1 = p <;> simp [h, ih]

theorem setEntry_keys_mem (m : List (String × Bool)) (p : String) (b : Bool)
    (q : String) :
    q ∈ (setEntry m p b).map Prod.fst ↔ q = p ∨ q ∈ m.map Prod.fst := by
  by_cases h : ((m.find? fun e => decide (e.1 = p)).isSome = true)
  · rw [setEntry, if_pos h, map_fst_replace]
    have hp : p ∈ m.map Prod.fst := (find_key_isSome m p).mp h
    constructor
    · exact Or.inr
    · rintro (rfl | hq)
      · exact hp
      · exact hq
  · rw [setEntry, if_neg h]
    simp

theorem setEntry_keys_nodup (m : List (String × Bool)) (p : String) (b : Bool)
    (h : (m.map Prod.fst).Nodup) : ((setEntry m p b).map Prod.fst).Nodup := by
  by_cases hs : ((m.find? fun e => decide (e.1 = p)).isSome = true)
  · rw [setEntry, if_pos hs, map_fst_replace]; exact h
  · rw [setEntry, if_neg hs]
    simp only [List.map_cons, List.nodup_cons]
    exact ⟨fun hmem => hs ((find_key_isSome m p).mpr hmem), h⟩

theorem map_fst_erase (m : List (String × Bool)) (p : String) :
    (m.filter fun e => decide (e.1 ≠ p)).map Prod.fst
      = (m.map Prod.fst).filter fun q => decide (q ≠ p) := by
  induction m with
  | nil => rfl
  | cons e rest ih =>
    by_cases h : e.1 = p <;> simp [h] <;> simpa using ih

theorem filter_ne_of_not_mem (l : List String) (p : String) (h : p ∉ l) :
    (l.filter fun q => decide (q ≠ p)) = l := by
  refine List.filter_eq_self.mpr ?_
  intro a ha
  have : a ≠ p := fun heq => h (heq ▸ ha)
  simp [this]

theorem filter_ne_then_not_mem (l : List String) (x : String) (L : List String) :
    ((l.filter fun q => decide (q ≠ x)).filter fun q => decide (q ∉ L))
      = l.filter fun q => decide (q ∉ x :: L) := by
  rw [List.filter_filter]
  refine List.filter_congr ?_
  intro a _
  by_cases h1 : a = x <;> by_cases h2 : a ∈ L <;> simp [h1, h2]

theorem filter_not_mem_nil (l : List String) :
    (l.filter fun q => decide (q ∉ ([] : List String))) = l := by
  refine List.filter_eq_self.mpr ?_
  intro a _
  simp

theorem syncStep_allOk (w : Option Nat) (st : MirrorState) (e : SrcEntry)
    (hsub : ∀ q ∈ st.unprocessed, q ∈ st.entries.map Prod.fst)
    (hnd : (st.entries.map Prod.fst).Nodup) :
    ∃ st1, syncStep allOk w st (Except.ok e) = Except.ok st1
      ∧ (∀ p, p ∈ st1.entries.map Prod.fst ↔
          p = e.path ∨ p ∈ st.entries.map Prod.fst)
      ∧ st1.unprocessed = st.unprocessed.filter (fun q => decide (q ≠ e.path))
      ∧ (st1.entries.map Prod.fst).Nodup := by
  cases hek : e.kind
  case dir =>
    by_cases hin : e.path ∈ st.unprocessed
    · have hkey : e.path ∈ st.entries.map Prod.fst := hsub e.path hin
      have hlook : (lookupEntry st.entries e.path).isSome = true :=
        (lookupEntry_isSome_iff _ _).mpr hkey
      refine ⟨{ st with
          unprocessed := st.unprocessed.filter fun q => decide (q ≠ e.path) },
        by simp [syncStep, allOk, hek, hin, hlook], ?_, rfl, hnd⟩
      intro p
      constructor
      · exact Or.inr
      · rintro (rfl | hq)
        · exact hkey
        · exact hq
    · refine ⟨{ st with
          entries := setEntry st.entries e.path true
          logs := st.logs ++ [SyncLog.mkdirLog e.path] },
        by simp [syncStep, allOk, hek, hin, applyMkdir], ?_, ?_, ?_⟩
      · intro p
        exact setEntry_keys_mem st.entries e.path true p
      · exact (filter_ne_of_not_mem _ _ hin).symm
      · exact setEntry_keys_nodup _ _ _ hnd
  case file =>
    by_cases hin : e.path ∈ st.unprocessed
    · by_cases hcopy : (match w with
        | none => true
        | some t => decide (e.mtime > t)) = true
      · refine ⟨{ st with
            entries := setEntry st.entries e.path false
            logs := st.logs ++ [SyncLog.cpLog e.path]
            unprocessed := st.unprocessed.filter fun q => decide (q ≠ e.path) },
          by simp [syncStep, allOk, hek, hin, hcopy, applyCopy], ?_, rfl, ?_⟩
        · intro p
          exact setEntry_keys_mem st.entries e.path false p
        · exact setEntry_keys_nodup _ _ _ hnd
      · have hkey : e.path ∈ st.entries.map Prod.fst := hsub e.path hin
        refine ⟨{ st with
            unprocessed := st.unprocessed.filter fun q => decide (q ≠ e.path) },
          by simp [syncStep, allOk, hek, hin, hcopy], ?_, rfl, hnd⟩
        intro p
        constructor
        · exact Or.inr
        · rintro (rfl | hq)
          · exact hkey
          · exact hq
    · refine ⟨{ st with
          entries := setEntry st.entries e.path false
          logs := st.logs ++ [SyncLog.cpLog e.path] },
        by simp [syncStep, allOk, hek, hin, applyCopy], ?_, ?_, ?_⟩
      · intro p
        exact setEntry_keys_mem st.entries e.path false p
      · exact (filter_ne_of_not_mem _ _ hin).symm
      · exact setEntry_keys_nodup _ _ _ hnd

theorem filter_not_mem_then_ne (l : List String) (done : List String) (x : String) :
    ((l.filter fun q => decide (q ∉ done)).filter fun q => decide (q ≠ x))
      = l.filter fun q => decide (q ∉ done ++ [x]) := by
  rw [List.filter_filter]
  refine List.filter_congr ?_
  intro a _
  by_cases h1 : a = x <;> by_cases h2 : a ∈ done <;> simp [h1, h2]

theorem syncWalk_allOk (w : Option Nat) :
    ∀ (rest : List SrcEntry) (st : MirrorState),
      (∀ q ∈ st.unprocessed, q ∈ st.entries.map Prod.fst) →
      ((st.entries.map Prod.fst).Nodup) →
      ∃ st2, syncWalk allOk w st (rest.map Except.ok) = Except.ok st2
        ∧ (∀ p, p ∈ st2.entries.map Prod.fst ↔
            p ∈ st.entries.map Prod.fst ∨ p ∈ rest.map SrcEntry.path)
        ∧ st2.unprocessed
            = st.unprocessed.filter (fun q => decide (q ∉ rest.map SrcEntry.path))
        ∧ (st2.entries.map Prod.fst).Nodup := by
  intro rest
  induction rest with
  | nil =>
    intro st hsub hnd
    refine ⟨st, rfl, ?_, ?_, hnd⟩
    · intro p; simp
    · symm
      refine List.filter_eq_self.mpr ?_
      intro a _
      simp
  | cons e rest' ih =>
    intro st hsub hnd
    obtain ⟨st1, hstep, hk1, hu1, hn1⟩ := syncStep_allOk w st e hsub hnd
    have hsub1 : ∀ q ∈ st1.unprocessed, q ∈ st1.entries.map Prod.fst := by
      intro q hq
      rw [hu1] at hq
      exact (hk1 q).mpr (Or.inr (hsub q (List.mem_filter.mp hq).1))
    obtain ⟨st2, hwalk, hk2, hu2, hn2⟩ := ih st1 hsub1 hn1
    refine ⟨st2, ?_, ?_, ?_, hn2⟩
    · simp only [List.map_cons, syncWalk, hstep]
      exact hwalk
    · intro p
      rw [hk2 p, hk1 p]
      simp only [List.map_cons, List.mem_cons]
      tauto
    · rw [hu2, hu1, List.map_cons]
      exact filter_ne_then_not_mem st.unprocessed e.path (rest'.map SrcEntry.path)

theorem removeStep_allOk_entries (st : MirrorState) (p : String) :
    (removeStep allOk st p).entries = st.entries.filter fun e => decide (e.1 ≠ p) := by
  by_cases h : lookupEntry st.entries p = some true <;> simp [removeStep, allOk, h]

theorem foldl_removeStep_keys : ∀ (R : List String) (st : MirrorState),
    (∀ p, p ∈ (R.foldl (removeStep allOk) st).entries.map Prod.fst ↔
      (p ∈ st.entries.map Prod.fst ∧ p ∉ R))
    ∧ ((st.entries.map Prod.fst).Nodup →
        ((R.foldl (removeStep allOk) st).entries.map Prod.fst).Nodup) := by
  intro R
  induction R with
  | nil =>
    intro st
    exact ⟨fun p => by simp, id⟩
  | cons x rest ih =>
    intro st
    rw [List.foldl_cons]
    have hkeys : (removeStep allOk st x).entries.map Prod.fst
        = (st.entries.map Prod.fst).filter fun q => decide (q ≠ x) := by
      rw [removeStep_allOk_entries, map_fst_erase]
    constructor
    · intro p
      rw [(ih (removeStep allOk st x)).1 p, hkeys]
      simp only [List.mem_filter, List.mem_cons, decide_eq_true_eq, not_or]
      tauto
    · intro hnd
      refine (ih (removeStep allOk st x)).2 ?_
      rw [hkeys]
      exact List.Nodup.filter _ hnd

theorem syncRemovals_allOk (st : MirrorState) :
    (∀ p, p ∈ (syncRemovals allOk st).entries.map Prod.fst ↔
      (p ∈ st.entries.map Prod.fst ∧ p ∉ st.unprocessed))
    ∧ ((st.entries.map Prod.fst).Nodup →
        ((syncRemovals allOk st).entries.map Prod.fst).Nodup)
    ∧ (syncRemovals allOk st).unprocessed = [] := by
  exact ⟨fun p => (foldl_removeStep_keys st.unprocessed st).1 p,
    fun h => (foldl_removeStep_keys st.unprocessed st).2 h, rfl⟩

theorem syncStep_noop (t : Nat) (st : MirrorState) (e : SrcEntry)
    (hin : e.path ∈ st.unprocessed)
    (hlook : e.path ∈ st.entries.map Prod.fst)
    (hmt : e.kind = EntryKind.file → e.mtime ≤ t) :
    syncStep allOk (some t) st (Except.ok e)
      = Except.ok { st with
          unprocessed := st.unprocessed.filter fun q => decide (q ≠ e.path) } := by
  cases hek : e.kind
  case dir =>
    simp [syncStep, allOk, hek, hin, (lookupEntry_isSome_iff _ _).mpr hlook]
  case file =>
    have hle : ¬ e.mtime > t := Nat.not_lt.mpr (hmt hek)
    simp [syncStep, allOk, hek, hin, hle]

theorem syncWalk_noop_aux (t : Nat) (m : List (String × Bool)) (logs : List SyncLog) :
    ∀ (rest : List SrcEntry) (done : List String),
      (∀ e ∈ rest, e.path ∈ m.map Prod.fst ∧ e.path ∉ done
        ∧ (e.kind = EntryKind.file → e.mtime ≤ t)) →
      ((rest.map SrcEntry.path).Nodup) →
      syncWalk allOk (some t)
        { entries := m
          unprocessed := (m.map Prod.fst).filter fun q => decide (q ∉ done)
          logs := logs } (rest.map Except.ok)
      = Except.ok
          { entries := m
            unprocessed := (m.map Prod.fst).filter
              fun q => decide (q ∉ done ++ rest.map SrcEntry.path)
            logs := logs } := by
  intro rest
  induction rest with
  | nil =>
    intro done _ _
    simp [syncWalk]
  | cons e rest' ih =>
    intro done hcond hnd
    have hnd2 : (e.path :: rest'.map SrcEntry.path).Nodup := by simpa using hnd
    obtain ⟨hkey, hdone, hmt⟩ := hcond e (List.mem_cons_self e rest')
    have hin : e.path ∈ (m.map Prod.fst).filter fun q => decide (q ∉ done) :=
      List.mem_filter.mpr ⟨hkey, by simp [hdone]⟩
    have hstep := syncStep_noop t
      { entries := m
        unprocessed := (m.map Prod.fst).filter fun q => decide (q ∉ done)
        logs := logs } e hin hkey hmt
    have hcond' : ∀ e2 ∈ rest', e2.path ∈ m.map Prod.fst
        ∧ e2.path ∉ done ++ [e.path]
        ∧ (e2.kind = EntryKind.file → e2.mtime ≤ t) := by
      intro e2 he2
      obtain ⟨hk2, hd2, hm2⟩ := hcond e2 (List.mem_cons_of_mem e he2)
      refine ⟨hk2, ?_, hm2⟩
      intro hc
      rcases List.mem_append.mp hc with hc | hc
      · exact hd2 hc
      · have heq : e2.path = e.path := by simpa using hc
        exact (List.nodup_cons.mp hnd2).1
          (heq ▸ List.mem_map_of_mem SrcEntry.path he2)
    have hih := ih (done ++ [e.path]) hcond' (List.nodup_cons.mp hnd2).2
    simp only [List.map_cons, syncWalk, hstep]
    show syncWalk allOk (some t)
        { entries := m
          unprocessed := ((m.map Prod.fst).filter
            fun q => decide (q ∉ done)).filter fun q => decide (q ≠ e.path)
          logs := logs } (rest'.map Except.ok) = _
    rw [filter_not_mem_then_ne]
    rw [hih]
    rw [List.append_assoc]
    rfl

/-- C6: with all filesystem calls succeeding, running the mirror pass twice on
an unchanged source (whose file mtimes do not exceed the first run's watermark
stamp) makes the second run emit no copy, mkdir or remove operation at all:
its log is empty, the mirror entries are unchanged, and the only change is the
watermark advancing to the second run's time. -/
theorem C6_mirror_idempotent (src : List SrcEntry) (m0 : List (String × Bool))
    (w : Option Nat) (t1 t2 : Nat)
    (hsrc : (src.map SrcEntry.path).Nodup)
    (hm0 : (m0.map Prod.fst).Nodup)
    (hmt : ∀ e ∈ src, e.kind = EntryKind.file → e.mtime ≤ t1) :
    ∀ st1, makeEmbeddedGitCopy allOk (src.map Except.ok) m0 w t1
        = Except.ok (st1, t1) →
      makeEmbeddedGitCopy allOk (src.map Except.ok) st1.entries (some t1) t2
        = Except.ok ({ entries := st1.entries, unprocessed := [], logs := [] }, t2) := by
  intro st1 hrun
  obtain ⟨stw, hwalk, hkw, huw, hnw⟩ := syncWalk_allOk w src
    { entries := m0, unprocessed := m0.map Prod.fst, logs := [] }
    (fun q hq => hq) hm0
  have hkw2 : ∀ p, p ∈ stw.entries.map Prod.fst ↔
      p ∈ m0.map Prod.fst ∨ p ∈ src.map SrcEntry.path := hkw
  have huw2 : stw.unprocessed
      = (m0.map Prod.fst).filter (fun q => decide (q ∉ src.map SrcEntry.path)) := huw
  have hstampOk : allOk.stampOk = true := rfl
  have hrun2 : makeEmbeddedGitCopy allOk (src.map Except.ok) m0 w t1
      = Except.ok (syncRemovals allOk stw, t1) := by
    simp only [makeEmbeddedGitCopy]
    rw [hwalk]
    simp [hstampOk]
  rw [hrun2] at hrun
  have hst1 : st1 = syncRemovals allOk stw :=
    (congrArg Prod.fst (Except.ok.inj hrun)).symm
  have hkeys1 : ∀ p, p ∈ st1.entries.map Prod.fst ↔ p ∈ src.map SrcEntry.path := by
    intro p
    rw [hst1, (syncRemovals_allOk stw).1 p, huw2]
    constructor
    · rintro ⟨hor, hnu⟩
      rcases (hkw2 p).mp hor with hk | hk
      · by_cases hs : p ∈ src.map SrcEntry.path
        · exact hs
        · exact absurd (List.mem_filter.mpr ⟨hk, by simp [hs]⟩) hnu
      · exact hk
    · intro hs
      refine ⟨(hkw2 p).mpr (Or.inr hs), ?_⟩
      intro hc
      have hc2 := List.mem_filter.mp hc
      simp [hs] at hc2
  have hnd1 : (st1.entries.map Prod.fst).Nodup := by
    rw [hst1]
    exact (syncRemovals_allOk stw).2.1 hnw
  have hnoop := syncWalk_noop_aux t1 st1.entries [] src []
    (fun e he => ⟨(hkeys1 e.path).mpr (List.mem_map_of_mem SrcEntry.path he),
      by simp, hmt e he⟩) hsrc
  rw [filter_not_mem_nil, List.nil_append] at hnoop
  have hempty : (st1.entries.map Prod.fst).filter
      (fun q => decide (q ∉ src.map SrcEntry.path)) = [] := by
    refine List.filter_eq_nil.mpr ?_
    intro q hq
    simp [(hkeys1 q).mp hq]
  rw [hempty] at hnoop
  simp only [makeEmbeddedGitCopy]
  rw [hnoop]
  simp [hstampOk, syncRemovals]

theorem C6_mirror_idempotent_witness :
    (srcC6w.map SrcEntry.path).Nodup
    ∧ (([] : List (String × Bool)).map Prod.fst).Nodup
    ∧ (∀ e ∈ srcC6w, e.kind = EntryKind.file → e.mtime ≤ 10)
    ∧ makeEmbeddedGitCopy allOk (srcC6w.map Except.ok) [] none 10
        = Except.ok (stateC6w, 10)
    ∧ makeEmbeddedGitCopy allOk (srcC6w.map Except.ok) stateC6w.entries (some 10) 20
        = Except.ok ({ entries := stateC6w.entries, unprocessed := [], logs := [] }, 20) :=
  ⟨by decide, by decide, by decide, by rfl,
    C6_mirror_idempotent srcC6w [] none 10 20 (by decide) (by decide) (by decide)
      stateC6w (by rfl)⟩

theorem applyCopy_ok (o : SyncOracles) (st : MirrorState) (p : String)
    (hcmeta : o.copyMetaOk p = true) (hperm : o.setPermsOk p = true) :
    ∃ st1, applyCopy o st p = Except.ok st1 := by
  by_cases hc : o.copyOk p = true
  · by_cases hr : o.readonlyCopy p = true <;>
      simp [applyCopy, hc, hcmeta, hperm, hr]
  · simp [applyCopy, hc]

theorem syncStep_ok (o : SyncOracles) (w : Option Nat) (st : MirrorState)
    (e : SrcEntry) (hmeta : o.srcMetaOk e.path = true)
    (hcmeta : o.copyMetaOk e.path = true) (hperm : o.setPermsOk e.path = true) :
    ∃ st1, syncStep o w st (Except.ok e) = Except.ok st1 := by
  cases hek : e.kind
  case dir =>
    by_cases hin : e.path ∈ st.unprocessed <;>
      simp [syncStep, hmeta, hek, hin]
  case file =>
    by_cases hin : e.path ∈ st.unprocessed
    · by_cases hcopy : (match w with
        | none => true
        | some t => decide (e.mtime > t)) = true
      · obtain ⟨st1, h1⟩ := applyCopy_ok o st e.path hcmeta hperm
        simp [syncStep, hmeta, hek, hin, hcopy, h1]
      · simp [syncStep, hmeta, hek, hin, hcopy]
    · obtain ⟨st1, h1⟩ := applyCopy_ok o st e.path hcmeta hperm
      simp [syncStep, hmeta, hek, hin, h1]

theorem syncWalk_ok (o : SyncOracles) (w : Option Nat)
    (hmeta : ∀ p, o.srcMetaOk p = true) (hcmeta : ∀ p, o.copyMetaOk p = true)
    (hperm : ∀ p, o.setPermsOk p = true) :
    ∀ (src : List SrcEntry) (st : MirrorState),
      ∃ st2, syncWalk o w st (src.map Except.ok) = Except.ok st2 := by
  intro src
  induction src with
  | nil => intro st; exact ⟨st, rfl⟩
  | cons e rest ih =>
    intro st
    obtain ⟨st1, h1⟩ := syncStep_ok o w st e (hmeta e.path) (hcmeta e.path)
      (hperm e.path)
    obtain ⟨st2, h2⟩ := ih st1
    exact ⟨st2, by simp only [List.map_cons, syncWalk, h1]; exact h2⟩

theorem syncWalk_error (o : SyncOracles) (w : Option Nat)
    (hmeta : ∀ p, o.srcMetaOk p = true) (hcmeta : ∀ p, o.copyMetaOk p = true)
    (hperm : ∀ p, o.setPermsOk p = true) :
    ∀ (l1 : List SrcEntry) (l2 : List (Except Unit SrcEntry)) (st : MirrorState),
      syncWalk o w st (l1.map Except.ok ++ Except.error () :: l2)
        = Except.error () := by
  intro l1
  induction l1 with
  | nil =>
    intro l2 st
    simp [syncWalk, syncStep]
  | cons e rest ih =>
    intro l2 st
    obtain ⟨st1, h1⟩ := syncStep_ok o w st e (hmeta e.path) (hcmeta e.path)
      (hperm e.path)
    simp only [List.map_cons, List.cons_append, syncWalk, h1]
    exact ih l2 st1

theorem C7_counterexample_metadata_abort :
    Except.error () ∉
      ([Except.ok { path := "f", kind := EntryKind.file, mtime := 5 }]
        : List (Except Unit SrcEntry))
    ∧ makeEmbeddedGitCopy badSyncOracles
        ([Except.ok { path := "f", kind := EntryKind.file, mtime := 5 }]
          : List (Except Unit SrcEntry)) [] none 10
      = Except.error () := by
  exact ⟨by simp, by rfl⟩

/-- C7 (amended): the per-mirror pass completes for every pattern of copy,
mkdir and remove failures (each is logged individually and the walk
continues), and it aborts on a traversal (walkdir) failure; but the metadata
read after a successful copy, the permission strip and the watermark stamp
are unwrapped by the source, so their failures also abort the pass. -/
theorem C7_amended_partial_failure (o : SyncOracles) (src l1Src : List SrcEntry)
    (l2 : List (Except Unit SrcEntry))
    (m0 : List (String × Bool)) (w : Option Nat) (now : Nat)
    (hmeta : ∀ p, o.srcMetaOk p = true) (hcmeta : ∀ p, o.copyMetaOk p = true)
    (hperm : ∀ p, o.setPermsOk p = true) (hstamp : o.stampOk = true) :
    (∃ res, makeEmbeddedGitCopy o (src.map Except.ok) m0 w now = Except.ok res)
    ∧ (∀ st p, o.mkdirOk p = false →
        applyMkdir o st p = { st with logs := st.logs ++ [SyncLog.errMkdir p] })
    ∧ (∀ st p, o.copyOk p = false →
        applyCopy o st p = Except.ok { st with logs := st.logs ++ [SyncLog.errCp p] })
    ∧ (∀ st p, o.removeOk p = false → (removeStep o st p).entries = st.entries
        ∧ ((removeStep o st p).logs = st.logs ++ [SyncLog.errRmdir p]
          ∨ (removeStep o st p).logs = st.logs ++ [SyncLog.errRm p]))
    ∧ makeEmbeddedGitCopy o (l1Src.map Except.ok ++ Except.error () :: l2) m0 w now
        = Except.error () := by
  refine ⟨?_, ?_, ?_, ?_, ?_⟩
  · obtain ⟨st2, h⟩ := syncWalk_ok o w hmeta hcmeta hperm src
      { entries := m0, unprocessed := m0.map Prod.fst, logs := [] }
    exact ⟨(syncRemovals o st2, now), by simp [makeEmbeddedGitCopy, h, hstamp]⟩
  · intro st p h
    simp [applyMkdir, h]
  · intro st p h
    simp [applyCopy, h]
  · intro st p h
    by_cases hl : lookupEntry st.entries p = some true <;>
      simp [removeStep, hl, h]
  · have hw := syncWalk_error o w hmeta hcmeta hperm l1Src l2
      { entries := m0, unprocessed := m0.map Prod.fst, logs := [] }
    simp [makeEmbeddedGitCopy, hw]

theorem C7_amended_partial_failure_witness :
    (∃ res, makeEmbeddedGitCopy failCopySyncOracles (srcC7w.map Except.ok)
        [] none 7 = Except.ok res)
    ∧ makeEmbeddedGitCopy failCopySyncOracles
        (([] : List SrcEntry).map Except.ok ++ Except.error () :: []) [] none 7
      = Except.error () :=
  ⟨(C7_amended_partial_failure failCopySyncOracles srcC7w [] [] [] none 7
      (fun _ => rfl) (fun _ => rfl) (fun _ => rfl) rfl).1,
    (C7_amended_partial_failure failCopySyncOracles srcC7w [] [] [] none 7
      (fun _ => rfl) (fun _ => rfl) (fun _ => rfl) rfl).2.2.2.2⟩
